import Mathlib

/-!
Verification of the go-retry library.

This file is a shallow embedding of the library's four core source files:
`retry.go` (the retry engine `Run` and `isErrRetryable`), `delay.go` (the
delay strategies), `errors.go` (the `ErrTooManyRetries` sentinel) and
`retryerr.go` (the retryable-error wrapper), together with theorems about
the embedded definitions.

Modelling choices:

* Go `error` values are modelled by the inductive type `Err`: a plain error
  carrying its message (`Err.mk`), or the `*retryableErr` wrapper around an
  inner error (`Err.retryable`).  A nilable Go `error` is `Option Err`.
* Go `int64` / `time.Duration` arithmetic is modelled on `Int` with an
  explicit two's-complement wrap `wrap64` applied wherever the Go code
  multiplies, adds or shifts (Go wraps silently on overflow).
* The iteration argument of a delay strategy is a `Nat`; Go would panic on
  a shift by a negative amount in `Exponential`, so the embedding is
  faithful for `iteration ≥ 1`, which is the only way the engine and the
  documented contract ever call a strategy.
* The cancellation context is a `Ctx`: `doneAtWait = some k` means the
  token is done (and therefore wins the select race against the sleep
  timer) at every wait from iteration `k` on; `none` is a never-done
  context such as `context.Background()`.  `reason` is the value of
  `ctx.Err()` once done.
* The user operation is `fn : Nat → Option Err`, a function of how many
  times it has been invoked before (Go closures used with this library are
  stateful in exactly this way); `none` is a nil error, i.e. success.
* `Run` is fuel-indexed because the Go loop is unbounded when
  `retryLimit < 0`; `none` means the fuel ran out before the loop
  terminated.  On termination it returns the Go result together with the
  number of invocations of `fn` and the ordered list of iteration numbers
  passed to the delay strategy, which is the complete observable
  interaction with those collaborators.  The numeric value returned by the
  delay strategy only feeds the sleep timer, whose race against the token
  is abstracted by `Ctx`, so `runAux` records the consultation trace
  instead of the strategy's return values.
* `math/rand` / `crypto/rand` and the float64 arithmetic of
  `randDuration` are modelled by an explicit raw draw and exact rational
  arithmetic; the Go float→integer conversion truncates toward zero, which
  `randDuration` reproduces with a truncated integer division.
-/

namespace GoRetry

/-- A Go error value as used by this library: either a plain error exposing a
message via its Error() method, or the `*retryableErr` wrapper of
`retryerr.go` around an inner error. -/
inductive Err where
  | mk (msg : String)
  | retryable (inner : Err)
deriving DecidableEq

/-- The Error() method: `(*retryableErr).Error()` (retryerr.go) delegates to
the wrapped error, a plain error returns its own message. -/
def errorMessage : Err → String
  | Err.mk msg => msg
  | Err.retryable inner => errorMessage inner

/-- `RetryErr` (retryerr.go): wrap an error value as a retryable error. -/
def RetryErr (err : Err) : Err := Err.retryable err

/-- `ErrTooManyRetries` (errors.go): the exhaustion sentinel. -/
def ErrTooManyRetries : Err := Err.mk "exceeded retry limit"

/-- `isErrRetryable` (retry.go): nil is not retryable, otherwise test whether
the dynamic type is `*retryableErr`. -/
def isErrRetryable : Option Err → Bool
  | some (Err.retryable _) => true
  | _ => false

/-- Two's-complement wrap of an integer into the `int64` range
`[-2^63, 2^63)`; the numerals are `2^63` and `2^64`.  Go `int64` addition,
multiplication and left shift all reduce modulo `2^64` this way. -/
def wrap64 (x : Int) : Int :=
  (x + 9223372036854775808) % 18446744073709551616 - 9223372036854775808

/-- `time.Second` in nanoseconds, the unit of `time.Duration`. -/
def timeSecond : Int := 1000000000

/-- `Exponential` (delay.go): `sleepFactor := 1 << (iteration - 1)` followed
by `time.Second * time.Duration(sleepFactor)`.  The `base` parameter is
accepted but never used by the Go code.  The shift and the product are
`int64` operations, hence the wraps. -/
def Exponential (base : Int) (iteration : Nat) : Int :=
  let sleepFactor := wrap64 (2 ^ (iteration - 1))
  wrap64 (timeSecond * sleepFactor)

/-- `Linear` (delay.go): `base * time.Duration(iteration)`. -/
def Linear (base : Int) (iteration : Nat) : Int :=
  wrap64 (base * iteration)

/-- `Constant` (delay.go): always return the constructor argument. -/
def Constant (delay : Int) (iteration : Nat) : Int := delay

/-- `NoDelay` (delay.go): `Constant(0)`. -/
def NoDelay : Nat → Int := Constant 0

/-- The mutable closure state of `Fibonacci` (delay.go): the local variables
`beforePrevious` and `previous`. -/
structure FibState where
  beforePrevious : Int
  previous : Int
deriving DecidableEq

/-- The state both variables start from: `beforePrevious, previous := 1, 1`. -/
def fibInit : FibState := ⟨1, 1⟩

/-- The inner `fib` closure of `Fibonacci` (delay.go): for `iteration <= 2`
return 1 without touching the state, otherwise advance the pair one step and
return the new value.  Go `int` addition wraps. -/
def fibNext (s : FibState) (iteration : Nat) : Int × FibState :=
  if iteration ≤ 2 then (1, s)
  else
    let next := wrap64 (s.beforePrevious + s.previous)
    (next, ⟨s.previous, next⟩)

/-- `Fibonacci` (delay.go): `base * time.Duration(fib(iteration))`, returned
together with the updated closure state. -/
def Fibonacci (base : Int) (s : FibState) (iteration : Nat) : Int × FibState :=
  let fs := fibNext s iteration
  (wrap64 (base * fs.1), fs.2)

/-- Run a `Fibonacci` strategy over a list of iteration numbers, threading the
closure state, and collect the returned durations. -/
def fibonacciSeq (base : Int) : List Nat → FibState → List Int
  | [], _ => []
  | i :: rest, s =>
    let r := Fibonacci base s i
    r.1 :: fibonacciSeq base rest r.2

/-- `math.MaxInt64`. -/
def maxInt64 : Int := 9223372036854775807

/-- The final clamp of `randPositiveInt64` (delay.go): negate a negative
draw so the result is always non-negative. -/
def forcePositive (raw : Int) : Int := if raw < 0 then -raw else raw

/-- `randDuration` (delay.go):
`randFloatZeroToOne := float64(randPositiveInt64()) / float64(math.MaxInt64)`
then `time.Duration(float64(max) * (randFloatZeroToOne*2 - 1))`.
The float64 computation is modelled by exact rational arithmetic and the
final Go float→integer conversion truncates toward zero, so with
`r := forcePositive raw` and `M := maxInt64` the value is the truncation of
the rational `max * (r/M * 2 - 1) = max * (2*r - M) / M`, which `Int.tdiv`
(truncated division) computes exactly since `M > 0`.  `raw` is the value
produced by the random source before the sign clamp of
`randPositiveInt64`. -/
def randDuration (max : Int) (raw : Int) : Int :=
  Int.tdiv (max * (2 * forcePositive raw - maxInt64)) maxInt64

/-- `Rand` (delay.go): `maxOffset := originalSleepDuration / 10` (Go integer
division truncates toward zero, hence `Int.tdiv`) and the sum with the random
offset is an `int64` addition, hence the wrap.  `raws` supplies the raw
random draw used at each iteration. -/
def Rand (delay : Nat → Int) (raws : Nat → Int) (iteration : Nat) : Int :=
  let originalSleepDuration := delay iteration
  let maxOffset := Int.tdiv originalSleepDuration 10
  wrap64 (originalSleepDuration + randDuration maxOffset (raws iteration))

/-- A cancellation context.  `doneAtWait = some k` means the Done channel is
closed in time to win the select race of every wait from iteration `k` on;
`none` never wins a race (e.g. `context.Background()`).  `reason` is
`ctx.Err()` once done. -/
structure Ctx where
  doneAtWait : Option Nat
  reason : Err

/-- Whether the token wins the select race at the wait before `iteration`. -/
def ctxDoneAt (c : Ctx) (iteration : Nat) : Bool :=
  match c.doneAtWait with
  | none => false
  | some k => decide (k ≤ iteration)

/-- `context.Background()`, substituted by `Run` when the caller passes nil:
never done, so its reason is never observed. -/
def background : Ctx := ⟨none, Err.mk "context.Background"⟩

/-- The code after the loop in `Run` (retry.go): a nil `lastError` becomes
`ErrTooManyRetries`; a `*retryableErr` is unwrapped one level to its inner
error; anything else is returned unchanged. -/
def finalResult : Option Err → Option Err
  | none => some ErrTooManyRetries
  | some (Err.retryable inner) => some inner
  | some e => some e

/-- The loop of `Run` (retry.go), one fuel unit per loop iteration.
`iteration` is the loop counter, `calls` the number of invocations of `fn`
so far, `delayArgs` the iteration numbers passed to the delay strategy so
far, `lastError` the tracked latest error.  Termination yields the returned
Go error together with the final invocation count and consultation trace;
`none` means the fuel ran out (the Go loop is unbounded for a negative
limit).  The loop body mirrors the source line by line: the guard
`retryLimit < 0 || Limit(iteration) <= retryLimit`; for `iteration > 0` the
consultation `sleepDuration := delay(iteration)` (recorded in the trace)
followed by the select race, which the token wins exactly when
`ctxDoneAt`; then `err := fn(ctx)`, the update of `lastError` for non-nil
`err`, `continue` when retryable, and otherwise `return err`. -/
def runAux (ctx : Ctx) (retryLimit : Int) (delay : Nat → Int) (fn : Nat → Option Err) :
    Nat → Nat → Nat → List Nat → Option Err → Option (Option Err × Nat × List Nat)
  | 0, _, _, _, _ => none
  | fuel + 1, iteration, calls, delayArgs, lastError =>
    if retryLimit < 0 ∨ (iteration : Int) ≤ retryLimit then
      let delayArgs2 := if 0 < iteration then delayArgs ++ [iteration] else delayArgs
      if 0 < iteration ∧ ctxDoneAt ctx iteration = true then
        some (some ctx.reason, calls, delayArgs2)
      else
        let err := fn calls
        let lastError2 := if err.isSome then err else lastError
        if isErrRetryable err then
          runAux ctx retryLimit delay fn fuel (iteration + 1) (calls + 1) delayArgs2 lastError2
        else
          some (err, calls + 1, delayArgs2)
    else
      some (finalResult lastError, calls, delayArgs)

/-- `Run` (retry.go): substitute `context.Background()` for a nil context and
enter the loop at iteration 0 with no recorded error. -/
def Run (fuel : Nat) (ctx : Option Ctx) (retryLimit : Int) (delay : Nat → Int)
    (fn : Nat → Option Err) : Option (Option Err × Nat × List Nat) :=
  let c := match ctx with | none => background | some c0 => c0
  runAux c retryLimit delay fn fuel 0 0 [] none

/-- `Limit` constant `RetryOnce` (errors.go). -/
def RetryOnce : Int := 0

/-- `Limit` constant `RetryForever` (errors.go). -/
def RetryForever : Int := -1

/-- Unfolding of one loop iteration of `runAux` on positive fuel. -/
theorem runAux_succ (ctx : Ctx) (limit : Int) (delay : Nat → Int) (fn : Nat → Option Err)
    (fuel iteration calls : Nat) (dargs : List Nat) (last : Option Err) :
    runAux ctx limit delay fn (fuel + 1) iteration calls dargs last =
      (if limit < 0 ∨ (iteration : Int) ≤ limit then
        let delayArgs2 := if 0 < iteration then dargs ++ [iteration] else dargs
        if 0 < iteration ∧ ctxDoneAt ctx iteration = true then
          some (some ctx.reason, calls, delayArgs2)
        else
          let err := fn calls
          let lastError2 := if err.isSome then err else last
          if isErrRetryable err then
            runAux ctx limit delay fn fuel (iteration + 1) (calls + 1) delayArgs2 lastError2
          else
            some (err, calls + 1, delayArgs2)
      else
        some (finalResult last, calls, dargs)) := rfl

/-- When the loop guard fails, `runAux` returns through the exhaustion code
after the loop. -/
theorem runAux_exhaust (ctx : Ctx) (limit : Int) (delay : Nat → Int) (fn : Nat → Option Err)
    (fuel iteration calls : Nat) (dargs : List Nat) (last : Option Err)
    (h : ¬ (limit < 0 ∨ (iteration : Int) ≤ limit)) :
    runAux ctx limit delay fn (fuel + 1) iteration calls dargs last
      = some (finalResult last, calls, dargs) := by
  rw [runAux_succ, if_neg h]

/-- `wrap64` is the identity on the `int64` range. -/
theorem wrap64_eq_self (x : Int) (h1 : -9223372036854775808 ≤ x)
    (h2 : x < 9223372036854775808) : wrap64 x = x := by
  unfold wrap64
  omega

/-- `wrap64` is the identity when the magnitude stays below `2^63`. -/
theorem wrap64_eq_self_of_abs (x : Int) (h : |x| < 9223372036854775808) : wrap64 x = x := by
  rcases abs_lt.mp h with ⟨h1, h2⟩
  exact wrap64_eq_self x (le_of_lt h1) h2

/-- Core loop invariant for a run in which the operation keeps returning
retryable errors: entering the loop head at any iteration `1 ≤ i ≤ B`, with
`calls = i` (one invocation per previous iteration), the loop performs the
remaining iterations `i .. B`, consulting the delay strategy at each of
them, and exits through the exhaustion path unwrapping the error recorded
on the last attempt. -/
theorem runAux_retry_loop (B : Nat) (delay : Nat → Int) (fn : Nat → Option Err)
    (g : Nat → Err) (hfn : ∀ k, k ≤ B → fn k = some (Err.retryable (g k))) :
    ∀ (fuel iteration : Nat) (dargs : List Nat) (last : Option Err),
      1 ≤ iteration → iteration ≤ B → B + 2 ≤ iteration + fuel →
      runAux background (B : Int) delay fn fuel iteration iteration dargs last
        = some (some (g B), B + 1, dargs ++ List.range' iteration (B + 1 - iteration)) := by
  intro fuel
  induction fuel with
  | zero =>
    intro iteration dargs last h1 h2 h3
    omega
  | succ fuel ih =>
    intro iteration dargs last h1 h2 h3
    have hc : ((B : Int) < 0 ∨ (iteration : Int) ≤ (B : Int)) := Or.inr (by exact_mod_cast h2)
    have h0 : 0 < iteration := h1
    have hdone : ctxDoneAt background iteration = false := rfl
    rw [runAux_succ, if_pos hc]
    simp only [h0, hdone, Bool.false_eq_true, and_false, if_true, if_false, ite_true, ite_false,
      hfn iteration h2, isErrRetryable, Option.isSome_some]
    rcases Nat.lt_or_ge iteration B with hlt | hge
    · rw [ih (iteration + 1) (dargs ++ [iteration]) (some (Err.retryable (g iteration)))
        (by omega) (by omega) (by omega)]
      have hn : B + 1 - iteration = (B - iteration) + 1 := by omega
      have hn2 : B + 1 - (iteration + 1) = B - iteration := by omega
      rw [hn, hn2, List.range'_succ]
      simp
    · have hiB : iteration = B := by omega
      obtain ⟨f, rfl⟩ : ∃ f, fuel = f + 1 := ⟨fuel - 1, by omega⟩
      rw [runAux_exhaust]
      · rw [hiB]
        have hn : B + 1 - B = 1 := by omega
        rw [hn]
        rfl
      · push_cast
        omega

/-- A full run with budget `B ≥ 0` against an operation that returns a
retryable error on every one of its first `B + 1` invocations: `B + 1`
attempts, delay consultations at iterations `1 .. B`, and the unwrapped
inner error of the last attempt as the result. -/
theorem Run_retry_all (B : Nat) (delay : Nat → Int) (fn : Nat → Option Err) (g : Nat → Err)
    (hfn : ∀ k, k ≤ B → fn k = some (Err.retryable (g k))) :
    Run (B + 2) none (B : Int) delay fn = some (some (g B), B + 1, List.range' 1 B) := by
  show runAux background (B : Int) delay fn (B + 1 + 1) 0 0 [] none = _
  have hc : ((B : Int) < 0 ∨ ((0 : Nat) : Int) ≤ (B : Int)) :=
    Or.inr (by exact_mod_cast Nat.zero_le B)
  rw [runAux_succ, if_pos hc, hfn 0 (Nat.zero_le B)]
  show runAux background (B : Int) delay fn (B + 1) 1 1 [] (some (Err.retryable (g 0))) = _
  rcases Nat.eq_zero_or_pos B with hB | hB
  · subst hB
    rw [runAux_exhaust]
    · rfl
    · decide
  · rw [runAux_retry_loop B delay fn g hfn (B + 1) 1 [] (some (Err.retryable (g 0)))
      le_rfl hB (by omega)]
    simp

/-- C1: for every finite non-negative budget `B` and every operation that
always returns a retryable error, `Run` invokes the operation exactly `B + 1`
times (iterations 0..B), consults the delay strategy exactly `B` times with
arguments `1 .. B` in order, and returns the unwrapped inner error of the
last recorded retryable error; in particular with budget 0 the operation is
invoked exactly once and the result is the unwrapped inner error
(`List.range' 1 B` is the list `[1, ..., B]`, empty for `B = 0`). -/
theorem Run_always_retryable_exhausts_budget (B : Nat) (delay : Nat → Int) (g : Nat → Err) :
    Run (B + 2) none (B : Int) delay (fun k => some (Err.retryable (g k)))
      = some (some (g B), B + 1, List.range' 1 B) :=
  Run_retry_all B delay _ g (fun _ _ => rfl)

/-- C2: with budget 2 and an operation that returns a retryable error on its
first two invocations and succeeds on the third, `Run` invokes the operation
exactly 3 times, returns success (nil error), and consults the delay
strategy exactly twice, with iteration arguments 1 and 2 in that order. -/
theorem Run_budget2_third_attempt_succeeds (delay : Nat → Int) (e1 e2 : Err) :
    Run 3 none 2 delay
      (fun k => if k = 0 then some (Err.retryable e1)
        else if k = 1 then some (Err.retryable e2) else none)
      = some (none, 3, [1, 2]) := rfl

/-- C3: an operation returning a plain (non-retryable, non-nil) error on its
first call makes `Run` stop after exactly one invocation, for every budget,
returning that error unchanged and never consulting the delay strategy; and
in general any attempt whose result is not retryable (success or plain
error) terminates the run immediately with that exact result, bypassing the
budget check. -/
theorem Run_plain_error_terminates :
    (∀ (fuel : Nat) (limit : Int) (delay : Nat → Int) (fn : Nat → Option Err) (e : Err),
        fn 0 = some e → isErrRetryable (some e) = false →
        Run (fuel + 1) none limit delay fn = some (some e, 1, []))
    ∧ (∀ (ctx : Ctx) (limit : Int) (delay : Nat → Int) (fn : Nat → Option Err)
        (fuel iteration calls : Nat) (dargs : List Nat) (last : Option Err),
        (limit < 0 ∨ (iteration : Int) ≤ limit) →
        (0 < iteration → ctxDoneAt ctx iteration = false) →
        isErrRetryable (fn calls) = false →
        runAux ctx limit delay fn (fuel + 1) iteration calls dargs last
          = some (fn calls, calls + 1,
              if 0 < iteration then dargs ++ [iteration] else dargs)) := by
  have hgen : ∀ (ctx : Ctx) (limit : Int) (delay : Nat → Int) (fn : Nat → Option Err)
      (fuel iteration calls : Nat) (dargs : List Nat) (last : Option Err),
      (limit < 0 ∨ (iteration : Int) ≤ limit) →
      (0 < iteration → ctxDoneAt ctx iteration = false) →
      isErrRetryable (fn calls) = false →
      runAux ctx limit delay fn (fuel + 1) iteration calls dargs last
        = some (fn calls, calls + 1,
            if 0 < iteration then dargs ++ [iteration] else dargs) := by
    intro ctx limit delay fn fuel iteration calls dargs last hc hctx hret
    have hna : ¬ (0 < iteration ∧ ctxDoneAt ctx iteration = true) := by
      rintro ⟨hpos, hd⟩
      rw [hctx hpos] at hd
      exact Bool.false_ne_true hd
    rw [runAux_succ, if_pos hc]
    simp only []
    rw [if_neg hna]
    simp only [hret, Bool.false_eq_true, if_false, ite_false]
  refine ⟨?_, hgen⟩
  intro fuel limit delay fn e h1 h2
  have h := hgen background limit delay fn fuel 0 0 [] none
    (by omega) (fun hpos => absurd hpos (by omega)) (by rw [h1]; exact h2)
  rw [h1] at h
  simpa using h

/-- C4: whenever the cancellation token is done before the delay timer fires
in the wait step of an iteration `> 0` whose loop guard holds, `Run`
terminates at once with the token's cancellation reason, discarding any
previously recorded error and not invoking the operation again (the
invocation count is returned unchanged, the wait consulted the delay
strategy for that iteration first); and with unlimited budget and a token
that is done from the second wait on, the run ends with the cancellation
reason after exactly 2 invocations and delay consultations at iterations
1 and 2. -/
theorem Run_cancellation_wins :
    (∀ (ctx : Ctx) (limit : Int) (delay : Nat → Int) (fn : Nat → Option Err)
        (fuel iteration calls : Nat) (dargs : List Nat) (last : Option Err),
        0 < iteration → ctxDoneAt ctx iteration = true →
        (limit < 0 ∨ (iteration : Int) ≤ limit) →
        runAux ctx limit delay fn (fuel + 1) iteration calls dargs last
          = some (some ctx.reason, calls, dargs ++ [iteration]))
    ∧ (∀ (delay : Nat → Int) (reason : Err) (g : Nat → Err),
        Run 3 (some ⟨some 2, reason⟩) (-1) delay (fun k => some (Err.retryable (g k)))
          = some (some reason, 2, [1, 2])) := by
  constructor
  · intro ctx limit delay fn fuel iteration calls dargs last hpos hdone hc
    rw [runAux_succ, if_pos hc]
    simp only [hpos, hdone, eq_self_iff_true, and_true, true_and, and_self, if_true, ite_true]
  · intro delay reason g
    rfl

/-- C9: the `*retryableErr` wrapper created by `RetryErr` reports exactly the
wrapped error's message through its Error() method, and unwrapping a freshly
wrapped error the way the engine does on final return (the inner-field
extraction performed by `finalResult`) yields the original error value. -/
theorem RetryErr_roundtrip (e : Err) :
    errorMessage (RetryErr e) = errorMessage e ∧ finalResult (some (RetryErr e)) = some e :=
  ⟨rfl, rfl⟩

/-- C10 counterexample: a well-behaved operation that wraps the
`ErrTooManyRetries` sentinel itself makes `Run` return the sentinel value on
budget exhaustion, so "Run never returns the ErrTooManyRetries sentinel" is
false as stated: here budget 0 is exhausted after one retryable attempt and
the unwrapped result is the sentinel. -/
theorem Run_exhaustion_sentinel_cex :
    Run 2 none 0 (fun _ => 0) (fun _ => some (Err.retryable ErrTooManyRetries))
      = some (some ErrTooManyRetries, 1, []) := rfl

/-- C10 amended: whenever `Run` exits its loop by budget exhaustion (a finite
budget `B ≥ 0` with every attempt returning a retryable error), a retryable
error was recorded, and the result is the unwrapped inner error of the last
recorded retryable wrapper — never the `lastError == nil` fallback; the
result equals the `ErrTooManyRetries` sentinel only if the operation itself
wrapped that sentinel on the last attempt. -/
theorem Run_exhaustion_returns_recorded_error (B : Nat) (delay : Nat → Int)
    (fn : Nat → Option Err) (g : Nat → Err)
    (hfn : ∀ k, k ≤ B → fn k = some (Err.retryable (g k))) :
    Run (B + 2) none (B : Int) delay fn = some (some (g B), B + 1, List.range' 1 B)
      ∧ (Run (B + 2) none (B : Int) delay fn
            = some (some ErrTooManyRetries, B + 1, List.range' 1 B)
          → g B = ErrTooManyRetries) := by
  have h := Run_retry_all B delay fn g hfn
  refine ⟨h, ?_⟩
  intro h2
  rw [h] at h2
  simpa using h2

/-- Witness for C3 at a concrete input: budget 7, an operation failing with a
plain error at once. -/
theorem Run_plain_error_terminates_witness :
    Run 1 none 7 (fun _ => (0 : Int)) (fun _ => some (Err.mk "fatal"))
      = some (some (Err.mk "fatal"), 1, []) :=
  Run_plain_error_terminates.1 0 7 (fun _ => 0) (fun _ => some (Err.mk "fatal"))
    (Err.mk "fatal") rfl rfl

/-- Witness for C4 at concrete inputs: a token done from wait 1 cancels a
mid-run state untouched, and the unlimited-budget two-wait scenario. -/
theorem Run_cancellation_wins_witness :
    runAux ⟨some 1, Err.mk "canceled"⟩ 5 (fun _ => 0) (fun _ => none) 1 1 4 [9] none
      = some (some (Err.mk "canceled"), 4, [9, 1])
    ∧ Run 3 (some ⟨some 2, Err.mk "canceled"⟩) (-1) (fun _ => 0)
        (fun _ => some (Err.retryable (Err.mk "e")))
      = some (some (Err.mk "canceled"), 2, [1, 2]) :=
  ⟨Run_cancellation_wins.1 ⟨some 1, Err.mk "canceled"⟩ 5 (fun _ => 0) (fun _ => none)
      0 1 4 [9] none (by decide) rfl (by decide),
    Run_cancellation_wins.2 (fun _ => 0) (Err.mk "canceled") (fun _ => Err.mk "e")⟩

/-- Witness for C10 (amended) at a concrete input: budget 1, every attempt
wraps the same plain error. -/
theorem Run_exhaustion_returns_recorded_error_witness :
    Run 3 none 1 (fun _ => (0 : Int)) (fun _ => some (Err.retryable (Err.mk "boom")))
      = some (some (Err.mk "boom"), 2, List.range' 1 1)
    ∧ (Run 3 none 1 (fun _ => (0 : Int)) (fun _ => some (Err.retryable (Err.mk "boom")))
          = some (some ErrTooManyRetries, 2, List.range' 1 1)
        → Err.mk "boom" = ErrTooManyRetries) :=
  Run_exhaustion_returns_recorded_error 1 (fun _ => 0) _ (fun _ => Err.mk "boom")
    (fun _ _ => rfl)

/-- In the range where the int64 arithmetic cannot overflow, the exponential
delay is exactly `2^(iteration-1)` seconds (and independent of `base`). -/
theorem Exponential_eq_pow (base : Int) (i : Nat) (h1 : 1 ≤ i) (h2 : i ≤ 34) :
    Exponential base i = 1000000000 * 2 ^ (i - 1) := by
  unfold Exponential timeSecond
  have hle : (2 : Int) ^ (i - 1) ≤ 2 ^ 33 := pow_le_pow_right₀ (by norm_num) (by omega)
  have hpos : (0 : Int) < 2 ^ (i - 1) := pow_pos (by norm_num) _
  have h33 : (2 : Int) ^ 33 = 8589934592 := by norm_num
  rw [h33] at hle
  rw [wrap64_eq_self (2 ^ (i - 1)) (by linarith) (by linarith)]
  have hub : 1000000000 * 2 ^ (i - 1) ≤ 8589934592000000000 := by nlinarith
  exact wrap64_eq_self _ (by nlinarith) (by linarith)

/-- C5 counterexample: at iteration 35 the int64 product
`time.Second * 2^34` wraps to a negative duration, so Exponential does not
equal 1 second times `2^(i-1)` there — the claim fails for `i ≥ 35`. -/
theorem Exponential_overflow_cex :
    Exponential 12345 35 = -1266874889709551616
      ∧ Exponential 12345 35 ≠ 1000000000 * 2 ^ (35 - 1) :=
  ⟨by decide, by decide⟩

/-- C5 amended: the base parameter never affects the result of Exponential,
and for every iteration `1 ≤ i ≤ 34` — the range in which the int64
arithmetic does not overflow — the returned duration is exactly `2^(i-1)`
seconds (1s, 2s, 4s, 8s for i = 1..4); from i = 35 on the product wraps
modulo 2^64 (see the counterexample). -/
theorem Exponential_base_ignored_and_exact (b1 b2 : Int) (i : Nat) :
    Exponential b1 i = Exponential b2 i
      ∧ (1 ≤ i → i ≤ 34 → Exponential b1 i = 1000000000 * 2 ^ (i - 1)) :=
  ⟨rfl, fun h1 h2 => Exponential_eq_pow b1 i h1 h2⟩

/-- Witness for C5 (amended) at iteration 4: 8 seconds, for two different
bases. -/
theorem Exponential_base_ignored_and_exact_witness :
    Exponential 5 4 = Exponential 999 4 ∧ Exponential 5 4 = 8000000000 :=
  ⟨(Exponential_base_ignored_and_exact 5 999 4).1,
    ((Exponential_base_ignored_and_exact 5 999 4).2 (by norm_num) (by norm_num)).trans
      (by norm_num)⟩

/-- C6 counterexample: Linear with the non-negative base `2^62` already
yields a negative delay at iteration 2, because the int64 product wraps; so
"no strategy ever returns a negative delay" fails under the 64-bit
arithmetic the claim itself includes. -/
theorem Linear_negative_cex : Linear 4611686018427387904 2 < 0 := by decide

/-- C6 amended: no strategy returns a negative delay as long as its int64
arithmetic does not overflow: Constant with a non-negative duration (hence
NoDelay, identically zero) always; Linear when `base ≥ 0` and
`base * i < 2^63`; Exponential for `1 ≤ i ≤ 34`; Fibonacci whenever the
current sequence value is non-negative and `base * fib < 2^63`.  Outside
those ranges the products wrap and can go negative (see the
counterexample). -/
theorem delay_strategies_nonneg_without_overflow :
    (∀ (d : Int) (i : Nat), 0 ≤ d → 0 ≤ Constant d i)
    ∧ (∀ i : Nat, NoDelay i = 0)
    ∧ (∀ (base : Int) (i : Nat), 0 ≤ base → base * i < 9223372036854775808 →
        0 ≤ Linear base i)
    ∧ (∀ (base : Int) (i : Nat), 1 ≤ i → i ≤ 34 → 0 ≤ Exponential base i)
    ∧ (∀ (base : Int) (s : FibState) (i : Nat), 0 ≤ base → 0 ≤ (fibNext s i).1 →
        base * (fibNext s i).1 < 9223372036854775808 → 0 ≤ (Fibonacci base s i).1) := by
  refine ⟨fun d i hd => hd, fun i => rfl, ?_, ?_, ?_⟩
  · intro base i hb hlt
    have h0 : (0 : Int) ≤ base * i := mul_nonneg hb (Int.natCast_nonneg i)
    unfold Linear
    rw [wrap64_eq_self _ (by linarith) hlt]
    exact h0
  · intro base i h1 h2
    rw [Exponential_eq_pow base i h1 h2]
    positivity
  · intro base s i hb hf hlt
    have h0 : (0 : Int) ≤ base * (fibNext s i).1 := mul_nonneg hb hf
    show 0 ≤ wrap64 (base * (fibNext s i).1)
    rw [wrap64_eq_self _ (by linarith) hlt]
    exact h0

/-- Witness for C6 (amended) at concrete inputs inside the overflow-free
ranges. -/
theorem delay_strategies_nonneg_without_overflow_witness :
    0 ≤ Constant 5 3 ∧ NoDelay 9 = 0 ∧ 0 ≤ Linear 3 2 ∧ 0 ≤ Exponential 7 34
      ∧ 0 ≤ (Fibonacci 2 fibInit 3).1 :=
  ⟨delay_strategies_nonneg_without_overflow.1 5 3 (by decide),
    delay_strategies_nonneg_without_overflow.2.1 9,
    delay_strategies_nonneg_without_overflow.2.2.1 3 2 (by decide) (by decide),
    delay_strategies_nonneg_without_overflow.2.2.2.1 7 34 (by decide) (by decide),
    delay_strategies_nonneg_without_overflow.2.2.2.2 2 fibInit 3 (by decide) (by decide)
      (by decide)⟩

/-- C7 counterexample: with the base `2^60` (a valid duration of about 36.6
years) the sixth call multiplies by 8 and the int64 product wraps to
`-2^63`, so the sequence is not `base*1, base*1, base*2, base*3, base*5,
base*8` for every base. -/
theorem Fibonacci_overflow_cex :
    fibonacciSeq 1152921504606846976 [1, 2, 3, 4, 5, 6] fibInit
      ≠ [1152921504606846976 * 1, 1152921504606846976 * 1, 1152921504606846976 * 2,
          1152921504606846976 * 3, 1152921504606846976 * 5, 1152921504606846976 * 8] := by
  decide

/-- C7 amended: for every base with `|base| < 2^60` (so that even the
eightfold product fits in int64), a fresh Fibonacci strategy called with
iterations 1..6 in strictly increasing order returns exactly
`base*1, base*1, base*2, base*3, base*5, base*8`, and for every iteration
above 2 a call advances the internal pair (beforePrevious, previous) by
exactly one sequence step; for larger bases the returned values are the
same products reduced into int64 (see the counterexample). -/
theorem Fibonacci_first_six (base : Int) (hlo : -1152921504606846976 < base)
    (hhi : base < 1152921504606846976) :
    fibonacciSeq base [1, 2, 3, 4, 5, 6] fibInit
      = [base * 1, base * 1, base * 2, base * 3, base * 5, base * 8]
    ∧ (∀ (s : FibState) (i : Nat), 3 ≤ i →
        (fibNext s i).2 = ⟨s.previous, wrap64 (s.beforePrevious + s.previous)⟩) := by
  have hw : ∀ f : Int, 0 ≤ f → f ≤ 8 → wrap64 (base * f) = base * f := by
    intro f h0 h8
    apply wrap64_eq_self_of_abs
    rw [abs_mul]
    have hb : |base| ≤ 1152921504606846975 := by rw [abs_le]; omega
    have hf : |f| ≤ 8 := by rw [abs_le]; omega
    calc |base| * |f| ≤ 1152921504606846975 * 8 :=
          mul_le_mul hb hf (abs_nonneg f) (by norm_num)
      _ < 9223372036854775808 := by norm_num
  constructor
  · show [wrap64 (base * 1), wrap64 (base * 1), wrap64 (base * 2), wrap64 (base * 3),
        wrap64 (base * 5), wrap64 (base * 8)] = _
    rw [hw 1 (by norm_num) (by norm_num), hw 2 (by norm_num) (by norm_num),
      hw 3 (by norm_num) (by norm_num), hw 5 (by norm_num) (by norm_num),
      hw 8 (by norm_num) (by norm_num)]
  · intro s i hi
    unfold fibNext
    rw [if_neg (by omega)]

/-- Witness for C7 (amended) at base 7. -/
theorem Fibonacci_first_six_witness :
    fibonacciSeq 7 [1, 2, 3, 4, 5, 6] fibInit = [7 * 1, 7 * 1, 7 * 2, 7 * 3, 7 * 5, 7 * 8] :=
  (Fibonacci_first_six 7 (by norm_num) (by norm_num)).1

/-- Magnitude bound for truncated division by `math.MaxInt64`. -/
theorem abs_tdiv_maxInt64_le (a c : Int) (h : |a| ≤ c * 9223372036854775807) :
    |Int.tdiv a 9223372036854775807| ≤ c := by
  rcases le_or_lt 0 a with ha | ha
  · rw [abs_of_nonneg ha] at h
    rw [Int.tdiv_eq_ediv ha (by norm_num),
      abs_of_nonneg (Int.ediv_nonneg ha (by norm_num))]
    omega
  · have ha2 : (0 : Int) ≤ -a := by omega
    rw [abs_of_nonpos (le_of_lt ha)] at h
    have hneg : Int.tdiv a 9223372036854775807 = -Int.tdiv (-a) 9223372036854775807 := by
      rw [← Int.neg_tdiv, neg_neg]
    rw [hneg, abs_neg, abs_of_nonneg (Int.tdiv_nonneg ha2 (by norm_num)),
      Int.tdiv_eq_ediv ha2 (by norm_num)]
    omega

/-- The random offset never exceeds `max` in magnitude when `max ≥ 0` and
the raw draw is in the range `randPositiveInt64` produces. -/
theorem abs_randDuration_le (max raw : Int) (hm : 0 ≤ max) (h0 : 0 ≤ raw)
    (h1 : raw ≤ maxInt64) : |randDuration max raw| ≤ max := by
  unfold maxInt64 at h1
  unfold randDuration maxInt64
  rw [show forcePositive raw = raw from if_neg (by omega)]
  apply abs_tdiv_maxInt64_le
  rw [abs_mul]
  have h2 : |2 * raw - 9223372036854775807| ≤ 9223372036854775807 := by
    rw [abs_le]
    omega
  calc |max| * |2 * raw - 9223372036854775807|
      ≤ |max| * 9223372036854775807 := mul_le_mul_of_nonneg_left h2 (abs_nonneg max)
    _ = max * 9223372036854775807 := by rw [abs_of_nonneg hm]

/-- C8 counterexample: for the inner delay `math.MaxInt64` (non-negative)
and the maximal raw draw (u = 1), the int64 sum `d + offset` overflows and
wraps far below `d`, so the claimed bound `|Rand(inner)(i) - d| ≤ d/10` is
false at this input (the result is in fact negative). -/
theorem Rand_deviation_cex :
    ¬ |Rand (Constant maxInt64) (fun _ => maxInt64) 1 - Constant maxInt64 1|
        ≤ Int.tdiv (Constant maxInt64 1) 10 := by decide

/-- C8 amended: when the inner delay `d = inner(i)` is non-negative, the raw
draw is in the range `randPositiveInt64` produces, and `d + d/10` does not
overflow int64, `Rand` returns exactly `d + offset` where
`offset = randDuration (d/10) raw` is the truncation of
`(d/10) * (2u - 1)` for `u = raw / maxInt64`, and the deviation satisfies
`|Rand(inner)(i) - d| ≤ d/10`; without the overflow bound the sum wraps,
and then a non-negative inner delay does produce a negative result — at
`d = 2^63 - 1` with the maximal draw (second conjunct, the negative-value
edge case). -/
theorem Rand_offset_formula_and_bound :
    (∀ (delay : Nat → Int) (raws : Nat → Int) (i : Nat),
        0 ≤ delay i → 0 ≤ raws i → raws i ≤ maxInt64 →
        delay i + Int.tdiv (delay i) 10 < 9223372036854775808 →
        Rand delay raws i = delay i + randDuration (Int.tdiv (delay i) 10) (raws i)
          ∧ |Rand delay raws i - delay i| ≤ Int.tdiv (delay i) 10)
    ∧ Rand (Constant maxInt64) (fun _ => maxInt64) 1 < 0 := by
  constructor
  · intro delay raws i hd hr0 hr1 hov
    have hmo0 : 0 ≤ Int.tdiv (delay i) 10 := Int.tdiv_nonneg hd (by norm_num)
    have hmole : Int.tdiv (delay i) 10 ≤ delay i := by
      rw [Int.tdiv_eq_ediv hd (by norm_num)]
      omega
    have hoff := abs_randDuration_le (Int.tdiv (delay i) 10) (raws i) hmo0 hr0 hr1
    rcases abs_le.mp hoff with ⟨hofflo, hoffhi⟩
    have heq : Rand delay raws i
        = delay i + randDuration (Int.tdiv (delay i) 10) (raws i) := by
      show wrap64 (delay i + randDuration (Int.tdiv (delay i) 10) (raws i)) = _
      exact wrap64_eq_self _ (by linarith) (by linarith)
    refine ⟨heq, ?_⟩
    rw [heq]
    simpa using hoff
  · decide

/-- Witness for C8 (amended) at the concrete inner delay 100 with the
maximal draw: the offset is exactly `+10` and the deviation bound holds. -/
theorem Rand_offset_formula_and_bound_witness :
    Rand (Constant 100) (fun _ => maxInt64) 1
        = Constant 100 1 + randDuration (Int.tdiv (Constant 100 1) 10) maxInt64
      ∧ |Rand (Constant 100) (fun _ => maxInt64) 1 - Constant 100 1|
          ≤ Int.tdiv (Constant 100 1) 10 :=
  Rand_offset_formula_and_bound.1 (Constant 100) (fun _ => maxInt64) 1
    (by decide) (by decide) (by decide) (by decide)

end GoRetry
